import Mathlib

/-!
# Verification of the kv-sv storage core

A shallow embedding of the kv-sv key-value store's storage layer:
the `Value`/`Kvpair` data model, the in-memory engine backing the
`Storage` capability, the `StorageIter` adapter, the UTF-8 helper
`u8_to_string`, and the command dispatcher, together with theorems
settling the specification's claims about them.
-/

set_option autoImplicit false

/-- Modelled from the spec: engine error taxonomy (`error::KvError`, not under
src/); the only failure kind is an engine-internal failure carrying a
description. -/
inductive KvError where
  | internal (msg : String)
deriving DecidableEq, Repr

/-- Modelled from the spec: `pb::abi::Value` (not under src/), a tagged union
over string, byte sequence, 64-bit integer, 64-bit float and boolean. The
float is carried by its 64-bit representation, so equality is bit equality. -/
inductive Value where
  | Vstring (s : String)
  | Vbytes (b : List Nat)
  | Vint (i : Int)
  | Vfloat (bits : Nat)
  | Vbool (b : Bool)
deriving DecidableEq, Repr

/-- Modelled from the spec: `pb::abi::Kvpair` (not under src/), a pair of a
string key and a `Value`. -/
structure Kvpair where
  key : String
  value : Value
deriving DecidableEq, Repr

/-- Association-list lookup: the first entry whose key matches. -/
def alookup {α : Type} : List (String × α) → String → Option α
  | [], _ => none
  | (k, v) :: rest, key => if k = key then some v else alookup rest key

/-- Remove every entry stored under `k`; together with consing the new entry
this keeps keys unique, mirroring a hash map's replace-on-insert. -/
def eraseKey {α : Type} : List (String × α) → String → List (String × α)
  | [], _ => []
  | (k1, v) :: rest, k => if k1 = k then eraseKey rest k else (k1, v) :: eraseKey rest k

/-- One table of the in-memory engine: a key-to-Value mapping, represented as
an association list kept duplicate-free by construction. -/
abbrev KvTable := List (String × Value)

/-- Modelled from the spec: the in-memory engine's state (`MemTable`, not under
src/) — a mapping from table name to an independently keyed table, tables
created implicitly on first write. -/
abbrev StoreState := List (String × KvTable)

/-- The table a name denotes in a state; an absent table reads as empty, which
is the spec's "a non-existent table behaves like a non-existent key". -/
def tableOf (st : StoreState) (t : String) : KvTable :=
  (alookup st t).getD []

/-- Replace (or create) the table named `t`. -/
def tablesUpd (st : StoreState) (t : String) (tbl : KvTable) : StoreState :=
  (t, tbl) :: eraseKey st t

/-- Modelled from the spec: `Storage::get` as implemented by the in-memory
engine — read a key's value from a table; never fails. -/
def MemTable.get (st : StoreState) (t k : String) : Except KvError (Option Value) :=
  .ok (alookup (tableOf st t) k)

/-- Modelled from the spec: `Storage::set` as implemented by the in-memory
engine — install `v` under `k` in table `t` (creating the table if absent) and
return the key's previous value; never fails. -/
def MemTable.set (st : StoreState) (t k : String) (v : Value) :
    Except KvError (Option Value) × StoreState :=
  let tbl := tableOf st t
  (.ok (alookup tbl k), tablesUpd st t ((k, v) :: eraseKey tbl k))

/-- Modelled from the spec: `Storage::contains` as implemented by the
in-memory engine; never fails. -/
def MemTable.contains (st : StoreState) (t k : String) : Except KvError Bool :=
  .ok (alookup (tableOf st t) k).isSome

/-- Modelled from the spec: `Storage::del` as implemented by the in-memory
engine — remove `k` from table `t`, returning the removed value; deleting an
absent key or table is a no-op returning absent; never fails. -/
def MemTable.del (st : StoreState) (t k : String) :
    Except KvError (Option Value) × StoreState :=
  let tbl := tableOf st t
  (.ok (alookup tbl k), tablesUpd st t (eraseKey tbl k))

/-- Modelled from the spec: `Storage::get_all` as implemented by the in-memory
engine — materialize every pair of table `t`; empty for an absent table,
never an error. -/
def MemTable.get_all (st : StoreState) (t : String) : Except KvError (List Kvpair) :=
  .ok ((tableOf st t).map (fun p => Kvpair.mk p.1 p.2))

/-! ## The `StorageIter` adapter (src/src/storage/mod.rs, lines 46-66)

An engine-native iterator is modelled as a step function
`step : σ → Option (item × σ)` on an iterator-state type `σ`; the `Into<Kvpair>`
bound is a conversion function on items. -/

/-- `StorageIter::next` from the source: `self.data.next().map(|v| v.into())` —
drive the wrapped iterator one step and convert the produced item. -/
def StorageIter.next {σ α : Type} (step : σ → Option (α × σ)) (conv : α → Kvpair)
    (s : σ) : Option (Kvpair × σ) :=
  (step s).map (fun p => (conv p.1, p.2))

/-- Consume up to `fuel` items of an iterator into a list. -/
def iterCollect {σ α : Type} (step : σ → Option (α × σ)) : Nat → σ → List α
  | 0, _ => []
  | fuel + 1, s =>
    match step s with
    | none => []
    | some (a, s1) => a :: iterCollect step fuel s1

/-- The engine-native iterator of an in-memory table: walk the list of
entries. -/
def listStep {α : Type} : List α → Option (α × List α)
  | [] => none
  | x :: xs => some (x, xs)

/-- The `Into<Kvpair>` conversion of a table entry. -/
def pairToKvpair (p : String × Value) : Kvpair :=
  Kvpair.mk p.1 p.2

/-- Modelled from the spec: `Storage::get_iter` as implemented by the
in-memory engine — the table's native iterator wrapped in `StorageIter`,
collected; produced lazily in the source, so modelled by consuming the adapter
with enough fuel for the whole table. -/
def MemTable.get_iter (st : StoreState) (t : String) : Except KvError (List Kvpair) :=
  let tbl := tableOf st t
  .ok (iterCollect (StorageIter.next listStep pairToKvpair) tbl.length tbl)

/-! ## Basic lemmas about the engine model -/

theorem alookup_eraseKey_ne {α : Type} (l : List (String × α)) (k key : String)
    (h : ¬ key = k) : alookup (eraseKey l k) key = alookup l key := by
  induction l with
  | nil => rfl
  | cons p rest ih =>
    obtain ⟨k1, v⟩ := p
    have hky : ¬ k = key := fun hcon => h hcon.symm
    by_cases hk : k1 = k
    · have hkey : ¬ k1 = key := fun hcon => h (hk ▸ hcon.symm)
      simp [eraseKey, hk, alookup, hkey, hky, ih]
    · by_cases hkey : k1 = key
      · simp [eraseKey, hk, alookup, hkey, h]
      · simp [eraseKey, hk, alookup, hkey, ih]

theorem alookup_eraseKey_self {α : Type} (l : List (String × α)) (k : String) :
    alookup (eraseKey l k) k = none := by
  induction l with
  | nil => rfl
  | cons p rest ih =>
    obtain ⟨k1, v⟩ := p
    by_cases hk : k1 = k
    · simp [eraseKey, hk, ih]
    · simp [eraseKey, hk, alookup, ih]

theorem tableOf_upd_self (st : StoreState) (t : String) (tbl : KvTable) :
    tableOf (tablesUpd st t tbl) t = tbl := by
  simp [tableOf, tablesUpd, alookup]

theorem tableOf_upd_ne (st : StoreState) (t t1 : String) (tbl : KvTable)
    (h : ¬ t1 = t) : tableOf (tablesUpd st t tbl) t1 = tableOf st t1 := by
  have ht : ¬ t = t1 := fun hcon => h hcon.symm
  simp [tableOf, tablesUpd, alookup, ht, alookup_eraseKey_ne st t t1 h]

theorem get_set_self (st : StoreState) (t k : String) (v : Value) :
    MemTable.get (MemTable.set st t k v).2 t k = .ok (some v) := by
  simp [MemTable.get, MemTable.set, tableOf_upd_self, alookup]

theorem get_set_ne (st : StoreState) (t k k1 : String) (v : Value)
    (h : ¬ k1 = k) : MemTable.get (MemTable.set st t k v).2 t k1 = MemTable.get st t k1 := by
  have hk : ¬ k = k1 := fun hcon => h hcon.symm
  simp [MemTable.get, MemTable.set, tableOf_upd_self, alookup, hk,
    alookup_eraseKey_ne (tableOf st t) k k1 h]

theorem set_fst (st : StoreState) (t k : String) (v : Value) :
    (MemTable.set st t k v).1 = MemTable.get st t k := by
  simp [MemTable.set, MemTable.get]

/-! ## Command dispatcher

Modelled from the spec: the command dispatcher (§4.5, not under src/) is
state-free per call, performs exactly one Storage operation, and maps the
outcome to a `CommandResponse`. Only the request variants exercised by the
claims (HGET, HSET) are modelled. -/

/-- Modelled from the spec: the `CommandRequest` variants the development
uses. -/
inductive CommandRequest where
  | Hget (t k : String)
  | Hset (t k : String) (v : Value)
deriving DecidableEq, Repr

/-- Modelled from the spec: `CommandResponse` — an HTTP-like status code, an
ordered sequence of returned Values, and a human-readable message. -/
structure CommandResponse where
  status : Nat
  values : List Value
  message : String
deriving DecidableEq, Repr

/-- Modelled from the spec: the dispatcher against the in-memory engine.
A successful read with a value gives 200 and that value; a successful read of
an absent key gives 404 and no values; a successful write gives 200 and the
previous value, if any; an engine failure gives 500 carrying the error
description. -/
def dispatch (req : CommandRequest) (st : StoreState) : CommandResponse × StoreState :=
  match req with
  | .Hget t k =>
    match MemTable.get st t k with
    | .ok (some v) => (⟨200, [v], ""⟩, st)
    | .ok none => (⟨404, [], "Not found"⟩, st)
    | .error (.internal m) => (⟨500, [], m⟩, st)
  | .Hset t k v =>
    match MemTable.set st t k v with
    | (.ok (some old), st1) => (⟨200, [old], ""⟩, st1)
    | (.ok none, st1) => (⟨200, [], ""⟩, st1)
    | (.error (.internal m), st1) => (⟨500, [], m⟩, st1)

/-! ## Concurrent writers, modelled as interleavings

Modelled from the spec: per-key mutation is atomic (§5), so any concurrent
execution of N `set` calls is equivalent to executing them atomically in some
order; quantifying over every list of operations covers every such order. -/

/-- Apply a batch of `set` operations to table `t`, one after the other, in
the given order. -/
def applySets (st : StoreState) (t : String) (ops : List (String × Value)) : StoreState :=
  ops.foldl (fun s p => (MemTable.set s t p.1 p.2).2) st

theorem applySets_nil (st : StoreState) (t : String) : applySets st t [] = st := rfl

theorem applySets_cons (st : StoreState) (t : String) (p : String × Value)
    (ops : List (String × Value)) :
    applySets st t (p :: ops) = applySets (MemTable.set st t p.1 p.2).2 t ops := rfl

/-- A key touched by none of the remaining operations keeps its value across
the batch. -/
theorem get_applySets_not_mem (st : StoreState) (t : String)
    (ops : List (String × Value)) (k : String)
    (h : ∀ p ∈ ops, ¬ k = p.1) :
    MemTable.get (applySets st t ops) t k = MemTable.get st t k := by
  induction ops generalizing st with
  | nil => rfl
  | cons p rest ih =>
    rw [applySets_cons, ih _ (fun q hq => h q (List.mem_cons_of_mem p hq)),
      get_set_ne st t p.1 k p.2 (h p (List.mem_cons_self p rest))]

/-- With pairwise-distinct keys, every operation of the batch is observable
afterwards: no update is lost, whatever the order. -/
theorem get_applySets_distinct (st : StoreState) (t : String)
    (ops : List (String × Value))
    (hnd : (ops.map Prod.fst).Nodup) :
    ∀ p ∈ ops, MemTable.get (applySets st t ops) t p.1 = .ok (some p.2) := by
  induction ops generalizing st with
  | nil => intro p hp; cases hp
  | cons q rest ih =>
    intro p hp
    rw [List.map_cons, List.nodup_cons] at hnd
    rcases List.mem_cons.mp hp with hq | hmem
    · subst hq
      rw [applySets_cons, get_applySets_not_mem _ t rest p.1
        (fun r hr heq => hnd.1 (by rw [heq]; exact List.mem_map_of_mem Prod.fst hr))]
      exact get_set_self st t p.1 p.2
    · rw [applySets_cons]
      exact ih _ hnd.2 p hmem

/-- Applying a nonempty batch of `set` operations all targeting the same key
leaves that key holding the value of the last operation in the order. -/
theorem get_applySets_same_key (st : StoreState) (t k : String) (vs : List Value)
    (h : vs ≠ []) :
    MemTable.get (applySets st t (vs.map (fun v => (k, v)))) t k =
      .ok (some (vs.getLast h)) := by
  induction vs generalizing st with
  | nil => exact absurd rfl h
  | cons v rest ih =>
    rcases rest with _ | ⟨v1, rest1⟩
    · simp [applySets_cons, applySets_nil, get_set_self]
    · rw [List.map_cons, applySets_cons, ih _ (by simp)]
      simp [List.getLast]

/-! ## Lemmas about the iterator adapter -/

theorem iterCollect_storageIter {σ α : Type} (step : σ → Option (α × σ))
    (conv : α → Kvpair) (n : Nat) (s : σ) :
    iterCollect (StorageIter.next step conv) n s = (iterCollect step n s).map conv := by
  induction n generalizing s with
  | zero => rfl
  | succ m ih =>
    cases h : step s with
    | none => simp [iterCollect, StorageIter.next, h]
    | some p => simp [iterCollect, StorageIter.next, h, ih]

theorem iterCollect_listStep {α : Type} (l : List α) :
    iterCollect listStep l.length l = l := by
  induction l with
  | nil => rfl
  | cons x xs ih => simp [iterCollect, listStep, ih]

/-! ## Claims -/

/-- C1: for every engine state and every table `t`, key `k` and values `v`,
`v2`: the first `set(t,k,v)` on a fresh `(t,k)` returns absent, an immediately
following `set(t,k,v2)` returns `Some v`, and a `get(t,k)` after that returns
`Some v2`. -/
theorem set_set_get_sequence (st : StoreState) (t k : String) (v v2 : Value)
    (h : MemTable.get st t k = .ok none) :
    (MemTable.set st t k v).1 = .ok none ∧
    (MemTable.set (MemTable.set st t k v).2 t k v2).1 = .ok (some v) ∧
    MemTable.get (MemTable.set (MemTable.set st t k v).2 t k v2).2 t k = .ok (some v2) := by
  refine ⟨?_, ?_, ?_⟩
  · rw [set_fst, h]
  · rw [set_fst, get_set_self]
  · exact get_set_self _ t k v2

/-- Witness for C1 at the concrete state of the test: the empty store,
table `t1`, key `hello`, values `world` and `world1`. -/
theorem set_set_get_sequence_witness :
    (MemTable.set [] "t1" "hello" (Value.Vstring "world")).1 = .ok none ∧
    (MemTable.set (MemTable.set [] "t1" "hello" (Value.Vstring "world")).2 "t1" "hello"
      (Value.Vstring "world1")).1 = .ok (some (Value.Vstring "world")) ∧
    MemTable.get (MemTable.set (MemTable.set [] "t1" "hello" (Value.Vstring "world")).2 "t1"
      "hello" (Value.Vstring "world1")).2 "t1" "hello" =
      .ok (some (Value.Vstring "world1")) :=
  set_set_get_sequence [] "t1" "hello" (Value.Vstring "world") (Value.Vstring "world1") rfl

/-- C2: for a table and key never written (the key is absent from the state),
`get` returns `Ok None`, `contains` returns `Ok false` and `del` returns
`Ok None` — none of the calls errors; and an absent table makes every key
read as absent, so a non-existent table behaves exactly like a non-existent
key. -/
theorem absent_key_reads (st : StoreState) (t k : String)
    (h : alookup (tableOf st t) k = none) :
    MemTable.get st t k = .ok none ∧
    MemTable.contains st t k = .ok false ∧
    (MemTable.del st t k).1 = .ok none ∧
    (alookup st t = none → ∀ k1, alookup (tableOf st t) k1 = none) := by
  refine ⟨?_, ?_, ?_, ?_⟩
  · simp [MemTable.get, h]
  · simp [MemTable.contains, h]
  · simp [MemTable.del, h]
  · intro ht k1
    simp [tableOf, ht, alookup]

/-- Witness for C2: the never-written table `t2` and key `hello1` of the
empty store. -/
theorem absent_key_reads_witness :
    MemTable.get [] "t2" "hello1" = .ok none ∧
    MemTable.contains [] "t2" "hello1" = .ok false ∧
    (MemTable.del [] "t2" "hello1").1 = .ok none ∧
    (alookup ([] : StoreState) "t2" = none →
      ∀ k1, alookup (tableOf [] "t2") k1 = none) :=
  absent_key_reads [] "t2" "hello1" rfl

/-- C3: for every table in any fixed table state, collecting `get_iter`
yields, as a multiset, exactly the `Vec` returned by `get_all`. -/
theorem get_iter_multiset_eq_get_all (st : StoreState) (t : String) :
    ∃ l1 l2, MemTable.get_iter st t = .ok l1 ∧ MemTable.get_all st t = .ok l2 ∧
      (l1 : Multiset Kvpair) = (l2 : Multiset Kvpair) := by
  refine ⟨_, _, rfl, rfl, ?_⟩
  rw [iterCollect_storageIter, iterCollect_listStep]
  rfl

/-- C4: consuming `StorageIter` yields exactly the items of the wrapped
iterator, each converted by `Into<Kvpair>`, in the same order; each `next`
drives the wrapped iterator exactly one step, advancing through the same
states, and `StorageIter` is exhausted exactly when the wrapped iterator
is. -/
theorem storageIter_lockstep {σ α : Type} (step : σ → Option (α × σ))
    (conv : α → Kvpair) (s : σ) (n : Nat) :
    iterCollect (StorageIter.next step conv) n s = (iterCollect step n s).map conv ∧
    (StorageIter.next step conv s = none ↔ step s = none) ∧
    (StorageIter.next step conv s).map Prod.snd = (step s).map Prod.snd := by
  refine ⟨iterCollect_storageIter step conv n s, ?_, ?_⟩
  · cases h : step s <;> simp [StorageIter.next, h]
  · cases h : step s <;> simp [StorageIter.next, h]

/-- C5: for every engine state, table `t`, key `k` and value `v`: `del(t,k)`
right after `set(t,k,v)` returns `Some v`, and a second `del(t,k)` returns
absent. -/
theorem del_after_set (st : StoreState) (t k : String) (v : Value) :
    (MemTable.del (MemTable.set st t k v).2 t k).1 = .ok (some v) ∧
    (MemTable.del (MemTable.del (MemTable.set st t k v).2 t k).2 t k).1 = .ok none := by
  constructor
  · simp [MemTable.del, MemTable.set, tableOf_upd_self, alookup]
  · simp [MemTable.del, MemTable.set, tableOf_upd_self, eraseKey,
      alookup_eraseKey_self]

/-- C6: `get_all` on an absent table returns `Ok` with the empty sequence,
not an error; on an existing table it materializes exactly the pairs the
table holds. -/
theorem get_all_total (st : StoreState) (t : String) :
    (alookup st t = none → MemTable.get_all st t = .ok []) ∧
    (∀ tbl, alookup st t = some tbl →
      MemTable.get_all st t = .ok (tbl.map (fun p => Kvpair.mk p.1 p.2))) := by
  constructor
  · intro h
    simp [MemTable.get_all, tableOf, h]
  · intro tbl h
    simp [MemTable.get_all, tableOf, h]

/-- Witness for C6: the empty store's table `t0`, and a one-table store
holding `k1 ↦ v1`. -/
theorem get_all_total_witness :
    MemTable.get_all [] "t0" = .ok [] ∧
    MemTable.get_all [("t2", [("k1", Value.Vstring "v1")])] "t2" =
      .ok [Kvpair.mk "k1" (Value.Vstring "v1")] :=
  ⟨(get_all_total [] "t0").1 rfl,
   (get_all_total [("t2", [("k1", Value.Vstring "v1")])] "t2").2
     [("k1", Value.Vstring "v1")] rfl⟩

/-- C7: dispatching an HGET read against the engine: a successful read with a
value produces status 200 with exactly that value as the single returned
value; a successful read of an absent key produces status 404 with no
values. -/
theorem dispatch_hget_status (st : StoreState) (t k : String) :
    (∀ v, MemTable.get st t k = .ok (some v) →
      (dispatch (.Hget t k) st).1.status = 200 ∧
      (dispatch (.Hget t k) st).1.values = [v]) ∧
    (MemTable.get st t k = .ok none →
      (dispatch (.Hget t k) st).1.status = 404 ∧
      (dispatch (.Hget t k) st).1.values = []) := by
  constructor
  · intro v h
    simp [dispatch, h]
  · intro h
    simp [dispatch, h]

/-- Witness for C7: a store holding `hello ↦ world` in `table1` for the
200 case, and the empty store for the 404 case. -/
theorem dispatch_hget_status_witness :
    ((dispatch (.Hget "table1" "hello")
        [("table1", [("hello", Value.Vstring "world")])]).1.status = 200 ∧
      (dispatch (.Hget "table1" "hello")
        [("table1", [("hello", Value.Vstring "world")])]).1.values =
        [Value.Vstring "world"]) ∧
    ((dispatch (.Hget "table1" "hello") []).1.status = 404 ∧
      (dispatch (.Hget "table1" "hello") []).1.values = []) :=
  ⟨(dispatch_hget_status [("table1", [("hello", Value.Vstring "world")])]
      "table1" "hello").1 (Value.Vstring "world") rfl,
   (dispatch_hget_status [] "table1" "hello").2 rfl⟩

/-- C8: concurrent `set` calls, modelled as an arbitrary interleaving of the
atomic per-key updates: a batch with pairwise distinct keys loses no update —
every written pair is observable afterwards — and a batch of writes to one
key leaves the table holding exactly one of the attempted values (the last
in the interleaving order). -/
theorem concurrent_sets (st : StoreState) (t : String)
    (ops : List (String × Value)) (k : String) (vs : List Value) :
    ((ops.map Prod.fst).Nodup →
      ∀ p ∈ ops, MemTable.get (applySets st t ops) t p.1 = .ok (some p.2)) ∧
    (vs ≠ [] →
      ∃ v ∈ vs, MemTable.get (applySets st t (vs.map (fun v => (k, v)))) t k =
        .ok (some v)) := by
  constructor
  · exact fun h => get_applySets_distinct st t ops h
  · intro h
    exact ⟨vs.getLast h, List.getLast_mem h, get_applySets_same_key st t k vs h⟩

/-- Witness for C8: two writers on distinct keys `k1`, `k2`, and two writers
on the single key `k`. -/
theorem concurrent_sets_witness :
    (∀ p ∈ [("k1", Value.Vint 1), ("k2", Value.Vint 2)],
      MemTable.get (applySets [] "t" [("k1", Value.Vint 1), ("k2", Value.Vint 2)])
        "t" p.1 = .ok (some p.2)) ∧
    (∃ v ∈ [Value.Vint 1, Value.Vint 2],
      MemTable.get (applySets [] "t"
        ([Value.Vint 1, Value.Vint 2].map (fun v => ("k", v)))) "t" "k" =
        .ok (some v)) :=
  ⟨(concurrent_sets [] "t" [("k1", Value.Vint 1), ("k2", Value.Vint 2)] "k"
      [Value.Vint 1, Value.Vint 2]).1 (by decide),
   (concurrent_sets [] "t" [("k1", Value.Vint 1), ("k2", Value.Vint 2)] "k"
      [Value.Vint 1, Value.Vint 2]).2 (by decide)⟩

/-- C9: end-to-end with the in-memory engine: starting from the empty store,
dispatching HSET(table1, hello, world) and then HGET(table1, hello) on one
logical stream gives an HSET response with status 200 and an HGET response
with status 200 and values equal to `[world]`. -/
theorem hset_hget_end_to_end :
    (dispatch (.Hset "table1" "hello" (Value.Vstring "world")) []).1.status = 200 ∧
    (dispatch (.Hget "table1" "hello")
      (dispatch (.Hset "table1" "hello" (Value.Vstring "world")) []).2).1.status = 200 ∧
    (dispatch (.Hget "table1" "hello")
      (dispatch (.Hset "table1" "hello" (Value.Vstring "world")) []).2).1.values =
      [Value.Vstring "world"] :=
  ⟨rfl, rfl, rfl⟩

/-! ## UTF-8 and `u8_to_string` (src/src/storage/mod.rs, lines 68-79)

`u8_to_string` is `String::from_utf8_lossy(bytes).to_string()`. Bytes are
modelled as `List Nat` and a string as its list of Unicode scalar values;
the decoder below follows the byte-range table of UTF-8 validation used by
the Rust standard library, emitting U+FFFD for each maximal invalid
subpart. -/

/-- A UTF-8 continuation byte. -/
def isCont (b1 : Nat) : Prop := 0x80 ≤ b1 ∧ b1 < 0xC0

instance (b1 : Nat) : Decidable (isCont b1) := by
  unfold isCont
  infer_instance

/-- The admissible second byte of a three-byte sequence headed by `b`:
`0xE0` narrows it to exclude overlong forms, `0xED` to exclude surrogates. -/
def cont3 (b b1 : Nat) : Prop :=
  (b = 0xE0 ∧ 0xA0 ≤ b1 ∧ b1 < 0xC0) ∨
  (b = 0xED ∧ 0x80 ≤ b1 ∧ b1 < 0xA0) ∨
  (¬ b = 0xE0 ∧ ¬ b = 0xED ∧ 0x80 ≤ b1 ∧ b1 < 0xC0)

instance (b b1 : Nat) : Decidable (cont3 b b1) := by
  unfold cont3
  infer_instance

/-- The admissible second byte of a four-byte sequence headed by `b`:
`0xF0` excludes overlong forms, `0xF4` values beyond U+10FFFF. -/
def cont4 (b b1 : Nat) : Prop :=
  (b = 0xF0 ∧ 0x90 ≤ b1 ∧ b1 < 0xC0) ∨
  (b = 0xF4 ∧ 0x80 ≤ b1 ∧ b1 < 0x90) ∨
  (¬ b = 0xF0 ∧ ¬ b = 0xF4 ∧ 0x80 ≤ b1 ∧ b1 < 0xC0)

instance (b b1 : Nat) : Decidable (cont4 b b1) := by
  unfold cont4
  infer_instance

/-- Decode one scalar starting at byte `b` with the following bytes `bs`:
the scalar (U+FFFD on invalid input) and how many bytes of `bs` the sequence
consumed beyond `b` (the maximal valid subpart, as in the standard
library's lossy decoding). -/
def utf8Step (b : Nat) (bs : List Nat) : Nat × Nat :=
  if b < 0x80 then (b, 0)
  else if 0xC2 ≤ b ∧ b ≤ 0xDF then
    match bs with
    | b1 :: _ =>
      if isCont b1 then ((b - 0xC0) * 64 + (b1 - 0x80), 1) else (0xFFFD, 0)
    | [] => (0xFFFD, 0)
  else if 0xE0 ≤ b ∧ b ≤ 0xEF then
    match bs with
    | b1 :: b2 :: _ =>
      if cont3 b b1 then
        if isCont b2 then ((b - 0xE0) * 4096 + (b1 - 0x80) * 64 + (b2 - 0x80), 2)
        else (0xFFFD, 1)
      else (0xFFFD, 0)
    | [b1] => if cont3 b b1 then (0xFFFD, 1) else (0xFFFD, 0)
    | [] => (0xFFFD, 0)
  else if 0xF0 ≤ b ∧ b ≤ 0xF4 then
    match bs with
    | b1 :: b2 :: b3 :: _ =>
      if cont4 b b1 then
        if isCont b2 then
          if isCont b3 then
            ((b - 0xF0) * 262144 + (b1 - 0x80) * 4096 + (b2 - 0x80) * 64 + (b3 - 0x80), 3)
          else (0xFFFD, 2)
        else (0xFFFD, 1)
      else (0xFFFD, 0)
    | [b1, b2] =>
      if cont4 b b1 then
        if isCont b2 then (0xFFFD, 2) else (0xFFFD, 1)
      else (0xFFFD, 0)
    | [b1] => if cont4 b b1 then (0xFFFD, 1) else (0xFFFD, 0)
    | [] => (0xFFFD, 0)
  else (0xFFFD, 0)

/-- Lossy UTF-8 decoding of a byte sequence into scalar values, the model of
`String::from_utf8_lossy`: total on every input, replacing invalid subparts
with U+FFFD. -/
def utf8DecodeLossy : List Nat → List Nat
  | [] => []
  | b :: bs =>
    (utf8Step b bs).1 :: utf8DecodeLossy (bs.drop (utf8Step b bs).2)
termination_by l => l.length
decreasing_by
  simp [List.length_drop]
  omega

/-- `u8_to_string` from the source:
`String::from_utf8_lossy(self.as_ref()).to_string()`. -/
def u8_to_string (bs : List Nat) : List Nat :=
  utf8DecodeLossy bs

/-- A Unicode scalar value: below U+110000 and not a surrogate. -/
def ValidScalar (c : Nat) : Prop :=
  c < 0x110000 ∧ ¬ (0xD800 ≤ c ∧ c < 0xE000)

instance (c : Nat) : Decidable (ValidScalar c) := by
  unfold ValidScalar
  infer_instance

/-- The UTF-8 encoding of one scalar value. -/
def utf8EncodeChar (c : Nat) : List Nat :=
  if c < 0x80 then [c]
  else if c < 0x800 then [0xC0 + c / 64, 0x80 + c % 64]
  else if c < 0x10000 then [0xE0 + c / 4096, 0x80 + c / 64 % 64, 0x80 + c % 64]
  else [0xF0 + c / 262144, 0x80 + c / 4096 % 64, 0x80 + c / 64 % 64, 0x80 + c % 64]

/-- The UTF-8 encoding of a sequence of scalar values: a valid UTF-8 byte
sequence is exactly an encoding of its scalar values. -/
def utf8Encode : List Nat → List Nat
  | [] => []
  | c :: cs => utf8EncodeChar c ++ utf8Encode cs

theorem utf8DecodeLossy_nil : utf8DecodeLossy [] = [] := by
  rw [utf8DecodeLossy]

theorem utf8DecodeLossy_cons (b : Nat) (bs : List Nat) :
    utf8DecodeLossy (b :: bs) =
      (utf8Step b bs).1 :: utf8DecodeLossy (bs.drop (utf8Step b bs).2) := by
  rw [utf8DecodeLossy]

theorem utf8Step_enc1 (c : Nat) (rest : List Nat) (h : c < 0x80) :
    utf8Step c rest = (c, 0) := by
  simp [utf8Step, h]

theorem utf8Step_enc2 (c : Nat) (rest : List Nat) (h1 : 0x80 ≤ c) (h2 : c < 0x800) :
    utf8Step (0xC0 + c / 64) ((0x80 + c % 64) :: rest) = (c, 1) := by
  have hb1 : ¬ (0xC0 + c / 64) < 0x80 := by omega
  have hb2 : 0xC2 ≤ 0xC0 + c / 64 ∧ 0xC0 + c / 64 ≤ 0xDF := by omega
  have hc : isCont (0x80 + c % 64) := by
    unfold isCont
    omega
  simp [utf8Step, hb1, hb2, hc]
  omega

theorem utf8Step_enc3 (c : Nat) (rest : List Nat) (h1 : 0x800 ≤ c) (h2 : c < 0x10000)
    (h3 : ¬ (0xD800 ≤ c ∧ c < 0xE000)) :
    utf8Step (0xE0 + c / 4096) ((0x80 + c / 64 % 64) :: (0x80 + c % 64) :: rest) =
      (c, 2) := by
  have hb1 : ¬ (0xE0 + c / 4096) < 0x80 := by omega
  have hb2 : ¬ (0xC2 ≤ 0xE0 + c / 4096 ∧ 0xE0 + c / 4096 ≤ 0xDF) := by omega
  have hb3 : 0xE0 ≤ 0xE0 + c / 4096 ∧ 0xE0 + c / 4096 ≤ 0xEF := by omega
  have hc1 : cont3 (0xE0 + c / 4096) (0x80 + c / 64 % 64) := by
    unfold cont3
    omega
  have hc2 : isCont (0x80 + c % 64) := by
    unfold isCont
    omega
  simp [utf8Step, hb1, hb2, hb3, hc1, hc2]
  omega

theorem utf8Step_enc4 (c : Nat) (rest : List Nat) (h1 : 0x10000 ≤ c) (h2 : c < 0x110000) :
    utf8Step (0xF0 + c / 262144)
      ((0x80 + c / 4096 % 64) :: (0x80 + c / 64 % 64) :: (0x80 + c % 64) :: rest) =
      (c, 3) := by
  have hb1 : ¬ (0xF0 + c / 262144) < 0x80 := by omega
  have hb2 : ¬ (0xC2 ≤ 0xF0 + c / 262144 ∧ 0xF0 + c / 262144 ≤ 0xDF) := by omega
  have hb3 : ¬ (0xE0 ≤ 0xF0 + c / 262144 ∧ 0xF0 + c / 262144 ≤ 0xEF) := by omega
  have hb4 : 0xF0 ≤ 0xF0 + c / 262144 ∧ 0xF0 + c / 262144 ≤ 0xF4 := by omega
  have hc1 : cont4 (0xF0 + c / 262144) (0x80 + c / 4096 % 64) := by
    unfold cont4
    omega
  have hc2 : isCont (0x80 + c / 64 % 64) := by
    unfold isCont
    omega
  have hc3 : isCont (0x80 + c % 64) := by
    unfold isCont
    omega
  simp [utf8Step, hb1, hb2, hb3, hb4, hc1, hc2, hc3]
  omega

theorem utf8DecodeLossy_encodeChar (c : Nat) (h : ValidScalar c) (rest : List Nat) :
    utf8DecodeLossy (utf8EncodeChar c ++ rest) = c :: utf8DecodeLossy rest := by
  obtain ⟨hlt, hsur⟩ := h
  by_cases h1 : c < 0x80
  · have henc : utf8EncodeChar c = [c] := by simp [utf8EncodeChar, h1]
    rw [henc, List.singleton_append, utf8DecodeLossy_cons, utf8Step_enc1 c rest h1]
    simp
  · by_cases h2 : c < 0x800
    · have henc : utf8EncodeChar c = [0xC0 + c / 64, 0x80 + c % 64] := by
        simp [utf8EncodeChar, h1, h2]
      rw [henc]
      simp only [List.cons_append, List.nil_append]
      rw [utf8DecodeLossy_cons, utf8Step_enc2 c rest (Nat.le_of_not_lt h1) h2]
      simp [List.drop]
    · by_cases h3 : c < 0x10000
      · have henc : utf8EncodeChar c =
            [0xE0 + c / 4096, 0x80 + c / 64 % 64, 0x80 + c % 64] := by
          simp [utf8EncodeChar, h1, h2, h3]
        rw [henc]
        simp only [List.cons_append, List.nil_append]
        rw [utf8DecodeLossy_cons, utf8Step_enc3 c rest (Nat.le_of_not_lt h2) h3 hsur]
        simp [List.drop]
      · have henc : utf8EncodeChar c =
            [0xF0 + c / 262144, 0x80 + c / 4096 % 64, 0x80 + c / 64 % 64, 0x80 + c % 64] := by
          simp [utf8EncodeChar, h1, h2, h3]
        rw [henc]
        simp only [List.cons_append, List.nil_append]
        rw [utf8DecodeLossy_cons, utf8Step_enc4 c rest (Nat.le_of_not_lt h3) hlt]
        simp [List.drop]

theorem validScalar_utf8Step (b : Nat) (bs : List Nat) : ValidScalar (utf8Step b bs).1 := by
  unfold utf8Step
  repeat' split
  all_goals simp only [ValidScalar, cont3, cont4, isCont] at *
  all_goals omega

theorem validScalar_decode (n : Nat) :
    ∀ bs : List Nat, bs.length ≤ n → ∀ c ∈ utf8DecodeLossy bs, ValidScalar c := by
  induction n with
  | zero =>
    intro bs h c hc
    rcases bs with _ | ⟨b, rest⟩
    · rw [utf8DecodeLossy_nil] at hc
      cases hc
    · simp at h
  | succ m ih =>
    intro bs h c hc
    rcases bs with _ | ⟨b, rest⟩
    · rw [utf8DecodeLossy_nil] at hc
      cases hc
    · rw [utf8DecodeLossy_cons] at hc
      rcases List.mem_cons.mp hc with h1 | h1
      · rw [h1]
        exact validScalar_utf8Step b rest
      · refine ih (rest.drop (utf8Step b rest).2) ?_ c h1
        simp only [List.length_drop]
        simp at h
        omega

/-- C10: `u8_to_string` is total — on every byte-sequence input it yields a
string (a sequence of valid Unicode scalar values, invalid bytes having been
replaced lossily), never an error — and on every input that is valid UTF-8
(the encoding of a sequence of scalar values) it returns exactly the string
those bytes encode. -/
theorem u8_to_string_total_and_faithful :
    (∀ bs : List Nat, ∀ c ∈ u8_to_string bs, ValidScalar c) ∧
    (∀ cs : List Nat, (∀ c ∈ cs, ValidScalar c) → u8_to_string (utf8Encode cs) = cs) := by
  constructor
  · intro bs c hc
    exact validScalar_decode bs.length bs (Nat.le_refl _) c hc
  · intro cs h
    induction cs with
    | nil => simp [u8_to_string, utf8Encode, utf8DecodeLossy_nil]
    | cons c rest ih =>
      rw [u8_to_string, utf8Encode,
        utf8DecodeLossy_encodeChar c (h c (List.mem_cons_self c rest)) (utf8Encode rest)]
      rw [u8_to_string] at ih
      rw [ih (fun x hx => h x (List.mem_cons_of_mem c hx))]

/-- Witness for C10: the valid UTF-8 encoding of `he` followed by U+4E2D
decodes back to exactly those scalar values. -/
theorem u8_to_string_total_and_faithful_witness :
    u8_to_string (utf8Encode [104, 101, 0x4E2D]) = [104, 101, 0x4E2D] :=
  u8_to_string_total_and_faithful.2 [104, 101, 0x4E2D] (by decide)
